import Mathlib

/-!
Shallow embedding of `concurrent_log.py` (class `NetworkMonitor`), the single
source file of the `connection_data_logging` repository.

Conventions of the embedding:

* Raw command-output texts are `List Char` (the Python `str` the code pattern
  matches is ASCII command output).
* Python `re.search` with the concrete patterns of the source is embedded as
  leftmost search (`searchG`) of a per-position matcher.  Each pattern of the
  source uses only literal runs, the classes `[0-9.]`, `[0-9]`/`\d`, `\s`, and
  one `-?`; since in every pattern adjacent pieces draw from disjoint
  character sets, greedy maximal-munch matching coincides with Python's
  backtracking semantics, and each matcher below is maximal-munch.
* Python `float(...)` applied to a `[0-9.]+` capture is `pyFloatQ`: it fails
  (ValueError) exactly when the capture has more than one dot or no digit,
  and otherwise denotes the exact decimal rational.  Numeric values are
  modelled as exact rationals `ℚ` (the idealisation of IEEE doubles whose
  shortest repr round-trips); `int(...)` on `-?[0-9]+` always succeeds and is
  `strIntVal`.
* A Python function that can raise to its caller returns `Except Unit _`;
  `Except.error ()` is an uncaught ValueError.
-/

namespace ConnLog

/-- Python `\s` on ASCII text: space, tab, newline, carriage return,
vertical tab, form feed. -/
def wsCh (c : Char) : Bool :=
  c = ' ' || c = '\t' || c = '\n' || c = '\r' || c = '\x0b' || c = '\x0c'

/-- Character class `[0-9.]` of the float-valued patterns. -/
def numCh (c : Char) : Bool :=
  c.isDigit || c = '.'

/-- Numeric value of an ASCII digit character. -/
def charVal (c : Char) : ℕ :=
  c.toNat - 48

/-- ASCII digit character of a value below ten. -/
def digitChar (d : ℕ) : Char :=
  if d = 0 then '0' else if d = 1 then '1' else if d = 2 then '2'
  else if d = 3 then '3' else if d = 4 then '4' else if d = 5 then '5'
  else if d = 6 then '6' else if d = 7 then '7' else if d = 8 then '8' else '9'

/-- Value of a big-endian list of digit values. -/
def digitsVal (l : List ℕ) : ℕ :=
  l.foldl (fun a d => 10 * a + d) 0

/-- Value of a string of ASCII digits, as `int(...)` computes it on a
match of `[0-9]+`. -/
def strNatVal (cs : List Char) : ℕ :=
  digitsVal (cs.map charVal)

/-- Python `int(...)` on a match of `-?[0-9]+`. -/
def strIntVal (cs : List Char) : ℤ :=
  match cs with
  | '-' :: ds => -(strNatVal ds : ℤ)
  | ds => (strNatVal ds : ℤ)

/-- Match a literal run of the pattern at the head of the text, returning
the remainder. -/
def litM : List Char → List Char → Option (List Char)
  | [], s => some s
  | _ :: _, [] => none
  | c :: cs, d :: ds => if c = d then litM cs ds else none

/-- Match a nonempty maximal run of characters of a class (`X+` for a class
`X` disjoint from what follows), returning the run and the remainder. -/
def plusM (p : Char → Bool) (s : List Char) : Option (List Char × List Char) :=
  match s.takeWhile p with
  | [] => none
  | c :: cs => some (c :: cs, s.dropWhile p)

/-- Match `-?[0-9]+` at the head of the text (greedy optional minus),
returning the signed digit run and the remainder. -/
def signedDigits (s : List Char) : Option (List Char × List Char) :=
  match s with
  | '-' :: rest => (plusM Char.isDigit rest).map (fun r => ('-' :: r.1, r.2))
  | _ => plusM Char.isDigit s

/-- Leftmost search of a per-position matcher, as `re.search` scans the
text left to right. -/
def searchG (m : List Char → Option (List Char)) : List Char → Option (List Char)
  | [] => m []
  | c :: t =>
    match m (c :: t) with
    | some r => some r
    | none => searchG m t

/-- Check that the first argument is an initial segment of the second. -/
def startsWith : List Char → List Char → Bool
  | [], _ => true
  | _ :: _, [] => false
  | c :: cs, d :: ds => c = d && startsWith cs ds

/-- Check that the first argument occurs as a contiguous substring of the
second. -/
def hasSub (needle : List Char) : List Char → Bool
  | [] => startsWith needle []
  | c :: t => startsWith needle (c :: t) || hasSub needle t

def timeLit : List Char := "time=".toList

def rxLit : List Char := "rx bitrate:".toList

def txLit : List Char := "tx bitrate:".toList

def mbitLit : List Char := "MBit/s".toList

def signalLit : List Char := "signal:".toList

def dbmLit : List Char := "dBm".toList

def channelLit : List Char := "channel".toList

def parenLit : List Char := "(".toList

def mhzCloseLit : List Char := "MHz)".toList

def widthLit : List Char := "width:".toList

def mhzLit : List Char := "MHz".toList

def centerLit : List Char := "center1:".toList

def txpowerLit : List Char := "txpower".toList

/-- Matcher of `time=([0-9.]+)` at one position. -/
def matchTimeAt (s : List Char) : Option (List Char) := do
  let s1 ← litM timeLit s
  let r ← plusM numCh s1
  pure r.1

/-- Matcher of `rx bitrate:\s+([0-9.]+)\s+MBit/s` at one position. -/
def matchRxAt (s : List Char) : Option (List Char) := do
  let s1 ← litM rxLit s
  let w1 ← plusM wsCh s1
  let cap ← plusM numCh w1.2
  let w2 ← plusM wsCh cap.2
  let _ ← litM mbitLit w2.2
  pure cap.1

/-- Matcher of `tx bitrate:\s+([0-9.]+)\s+MBit/s` at one position. -/
def matchTxAt (s : List Char) : Option (List Char) := do
  let s1 ← litM txLit s
  let w1 ← plusM wsCh s1
  let cap ← plusM numCh w1.2
  let w2 ← plusM wsCh cap.2
  let _ ← litM mbitLit w2.2
  pure cap.1

/-- Matcher of `signal:\s+(-?[0-9]+)\s+dBm` at one position. -/
def matchSignalAt (s : List Char) : Option (List Char) := do
  let s1 ← litM signalLit s
  let w1 ← plusM wsCh s1
  let cap ← signedDigits w1.2
  let w2 ← plusM wsCh cap.2
  let _ ← litM dbmLit w2.2
  pure cap.1

/-- Matcher of `channel\s+\d+\s+\((\d+)\s+MHz\)` at one position. -/
def matchChannelAt (s : List Char) : Option (List Char) := do
  let s1 ← litM channelLit s
  let w1 ← plusM wsCh s1
  let d1 ← plusM Char.isDigit w1.2
  let w2 ← plusM wsCh d1.2
  let s2 ← litM parenLit w2.2
  let cap ← plusM Char.isDigit s2
  let w3 ← plusM wsCh cap.2
  let _ ← litM mhzCloseLit w3.2
  pure cap.1

/-- Matcher of `width:\s+(\d+)\s+MHz` at one position. -/
def matchWidthAt (s : List Char) : Option (List Char) := do
  let s1 ← litM widthLit s
  let w1 ← plusM wsCh s1
  let cap ← plusM Char.isDigit w1.2
  let w2 ← plusM wsCh cap.2
  let _ ← litM mhzLit w2.2
  pure cap.1

/-- Matcher of `center1:\s+(\d+)\s+MHz` at one position. -/
def matchCenterAt (s : List Char) : Option (List Char) := do
  let s1 ← litM centerLit s
  let w1 ← plusM wsCh s1
  let cap ← plusM Char.isDigit w1.2
  let w2 ← plusM wsCh cap.2
  let _ ← litM mhzLit w2.2
  pure cap.1

/-- Matcher of `txpower\s+([0-9.]+)\s+dBm` at one position. -/
def matchPowerAt (s : List Char) : Option (List Char) := do
  let s1 ← litM txpowerLit s
  let w1 ← plusM wsCh s1
  let cap ← plusM numCh w1.2
  let w2 ← plusM wsCh cap.2
  let _ ← litM dbmLit w2.2
  pure cap.1

/-- Python `float(...)` on a string drawn from `[0-9.]`: a ValueError
(`none`) exactly when there is more than one dot or no digit at all,
otherwise the exact decimal value. -/
def pyFloatQ (cs : List Char) : Option ℚ :=
  if (decide (cs.count '.' ≤ 1) && cs.any Char.isDigit) = true then
    let ip := cs.takeWhile (fun c => c != '.')
    let fp := (cs.dropWhile (fun c => c != '.')).drop 1
    some ((strNatVal ip : ℚ) + (strNatVal fp : ℚ) / 10 ^ fp.length)
  else none

/-- Conversion step `float(match.group(1)) if match else None` shared by the
latency, bitrate and txpower fields: absent when the pattern did not match,
a raised ValueError when the capture does not convert. -/
def floatConv (o : Option (List Char)) : Except Unit (Option ℚ) :=
  match o with
  | none => Except.ok none
  | some cap =>
    match pyFloatQ cap with
    | some v => Except.ok (some v)
    | none => Except.error ()

/-- Embedding of `NetworkMonitor.get_ping_latency`, from the raw `ping`
output text: `re.search` for `time=([0-9.]+)`, then `float` of the capture,
`None` when absent. -/
def get_ping_latency (output : List Char) : Except Unit (Option ℚ) :=
  floatConv (searchG matchTimeAt output)

/-- Embedding of `NetworkMonitor.get_link_info`, from the raw `iw dev ... link`
output text: three independent searches for rx bitrate, tx bitrate and
signal strength; `int` of the signal capture never fails. -/
def get_link_info (output : List Char) :
    Except Unit (Option ℚ × Option ℚ × Option ℤ) := do
  let rx ← floatConv (searchG matchRxAt output)
  let tx ← floatConv (searchG matchTxAt output)
  let sg := (searchG matchSignalAt output).map strIntVal
  pure (rx, tx, sg)

/-- Embedding of `NetworkMonitor.get_interface_info`, from the raw
`iw dev ... info` output text: frequency, width and centre frequency by
`int` of their captures (never failing), centre frequency falling back to
the frequency when its own pattern does not match, and txpower by `float`
of its capture. -/
def get_interface_info (output : List Char) :
    Except Unit (Option ℤ × Option ℤ × Option ℤ × Option ℚ) := do
  let freq := (searchG matchChannelAt output).map strIntVal
  let width := (searchG matchWidthAt output).map strIntVal
  let centre :=
    match searchG matchCenterAt output with
    | some cap => some (strIntVal cap)
    | none => freq
  let power ← floatConv (searchG matchPowerAt output)
  pure (freq, width, centre, power)

/-- Fuel-bounded count of the factors of `p` in `n`. -/
def fcA (p : ℕ) : ℕ → ℕ → ℕ
  | 0, _ => 0
  | fuel + 1, n => if n % p = 0 ∧ n ≠ 0 ∧ 2 ≤ p then fcA p fuel (n / p) + 1 else 0

/-- Count of the factors of `p` in `n` (`n` itself is always enough fuel). -/
def fc (p n : ℕ) : ℕ :=
  fcA p n n

/-- Decimal exponent of a denominator: the number of decimal digits needed
by a fraction with denominator `d`, when `d` divides a power of ten. -/
def kOf (d : ℕ) : ℕ :=
  max (fc 2 d) (fc 5 d)

/-- Decimal digit string of a natural number, as Python `str` renders it. -/
def natStr (n : ℕ) : List Char :=
  if n = 0 then ['0'] else ((Nat.digits 10 n).map digitChar).reverse

/-- Pad a digit string with leading zeros up to width `k`. -/
def padZ (k : ℕ) (s : List Char) : List Char :=
  List.replicate (k - s.length) '0' ++ s

/-- Decimal rendering of a nonnegative rational whose denominator divides a
power of ten, as Python `str` renders the corresponding float: integer part,
a dot, then the fractional digits (a single `0` when the value is whole). -/
def renderNN (q : ℚ) : List Char :=
  let k := kOf q.den
  let m := q.num.toNat * 10 ^ k / q.den
  natStr (m / 10 ^ k) ++ '.' :: padZ k (natStr (m % 10 ^ k))

/-- Python `str` of a float value (sign then decimal rendering). -/
def renderFloat (q : ℚ) : List Char :=
  if q < 0 then '-' :: renderNN (-q) else renderNN q

/-- Python `str` of an int value. -/
def renderInt (z : ℤ) : List Char :=
  if z < 0 then '-' :: natStr z.natAbs else natStr z.natAbs

/-- One Sample: the dict built by `collect_data_sample`, one row of the
time series.  `none` is Python `None` (an absent field). -/
structure Sample where
  timestamp : List Char
  latency_ms : Option ℚ
  rx_bitrate_mbps : Option ℚ
  tx_bitrate_mbps : Option ℚ
  signal_strength_dbm : Option ℤ
  frequency_mhz : Option ℤ
  width_mhz : Option ℤ
  centre_frequency_mhz : Option ℤ
  tx_power_dbm : Option ℚ

/-- Value stored under one key of the sample dict. -/
inductive FVal where
  | s (v : List Char)
  | qv (v : Option ℚ)
  | zv (v : Option ℤ)

/-- The sample dict as an association list, in the construction order of
`collect_data_sample`. -/
def recordOf (smp : Sample) : List (List Char × FVal) :=
  [ ("timestamp".toList, FVal.s smp.timestamp),
    ("latency_ms".toList, FVal.qv smp.latency_ms),
    ("rx_bitrate_mbps".toList, FVal.qv smp.rx_bitrate_mbps),
    ("tx_bitrate_mbps".toList, FVal.qv smp.tx_bitrate_mbps),
    ("signal_strength_dbm".toList, FVal.zv smp.signal_strength_dbm),
    ("frequency_mhz".toList, FVal.zv smp.frequency_mhz),
    ("width_mhz".toList, FVal.zv smp.width_mhz),
    ("centre_frequency_mhz".toList, FVal.zv smp.centre_frequency_mhz),
    ("tx_power_dbm".toList, FVal.qv smp.tx_power_dbm) ]

/-- The fixed `fieldnames` list of `write_csv_header` and `write_data_row`. -/
def fieldnames : List (List Char) :=
  [ "timestamp".toList, "latency_ms".toList, "rx_bitrate_mbps".toList,
    "tx_bitrate_mbps".toList, "signal_strength_dbm".toList,
    "frequency_mhz".toList, "width_mhz".toList,
    "centre_frequency_mhz".toList, "tx_power_dbm".toList ]

/-- Embedding of `write_csv_header`: the single header row the `DictWriter`
writes, its cells being the field names in their fixed order. -/
def write_csv_header : List (List Char) :=
  fieldnames

/-- Lookup of a key in the sample dict. -/
def lookupR (k : List Char) : List (List Char × FVal) → Option FVal
  | [] => none
  | kv :: r => if k = kv.1 then some kv.2 else lookupR k r

/-- CSV cell the `csv` module writes for one dict value: `None` becomes the
empty cell, a present number its `str` rendering, a string itself. -/
def cellOf : FVal → List Char
  | FVal.s v => v
  | FVal.qv none => []
  | FVal.qv (some q) => renderFloat q
  | FVal.zv none => []
  | FVal.zv (some z) => renderInt z

/-- Embedding of `write_data_row` around `csv.DictWriter.writerow`: raises
(`extrasaction` default) when the dict holds a key outside `fieldnames`;
otherwise emits one cell per field name in order, an empty cell
(`restval` default) for a field name missing from the dict. -/
def write_data_row (rec : List (List Char × FVal)) :
    Except Unit (List (List Char)) :=
  if rec.all (fun kv => fieldnames.contains kv.1) then
    Except.ok (fieldnames.map (fun f =>
      match lookupR f rec with
      | some v => cellOf v
      | none => []))
  else Except.error ()

/-- Row of cells appended for one Sample. -/
def rowCells (smp : Sample) : List (List Char) :=
  match write_data_row (recordOf smp) with
  | Except.ok r => r
  | Except.error _ => []

/-- The output file after `write_csv_header` and one `write_data_row` per
sample, as a list of rows of cells. -/
def writeFile (samples : List Sample) : List (List (List Char)) :=
  write_csv_header :: samples.map rowCells

/-- Reading one optional float cell back: the empty cell is an absent
value, any other decimal cell its value. -/
def parseCellQ (cs : List Char) : Option (Option ℚ) :=
  match cs with
  | [] => some none
  | _ => (pyFloatQ cs).map some

/-- Digit-string parser of a natural number cell. -/
def parseNat (cs : List Char) : Option ℕ :=
  if cs ≠ [] ∧ cs.all Char.isDigit then some (strNatVal cs) else none

/-- Reading one optional integer cell back: the empty cell is an absent
value, an optional minus then digits its value. -/
def parseCellZ (cs : List Char) : Option (Option ℤ) :=
  match cs with
  | [] => some none
  | c :: ds =>
    if c = '-' then (parseNat ds).map (fun n => some (-(n : ℤ)))
    else (parseNat (c :: ds)).map (fun n => some ((n : ℕ) : ℤ))

/-- Reading one data row back into a Sample. -/
def parseRow (cells : List (List Char)) : Option Sample :=
  match cells with
  | [ts, c1, c2, c3, c4, c5, c6, c7, c8] => do
    let l ← parseCellQ c1
    let rx ← parseCellQ c2
    let tx ← parseCellQ c3
    let sg ← parseCellZ c4
    let f ← parseCellZ c5
    let w ← parseCellZ c6
    let cf ← parseCellZ c7
    let tp ← parseCellQ c8
    pure ⟨ts, l, rx, tx, sg, f, w, cf, tp⟩
  | _ => none

/-- Well-formedness of one optional float field: nonnegative with a
denominator dividing a power of ten — exactly the values `float` of a
`[0-9.]+` capture can denote. -/
def wfQ (o : Option ℚ) : Bool :=
  match o with
  | none => true
  | some q => decide (0 ≤ q.num) && decide (q.den ∣ 10 ^ kOf q.den)

/-- Well-formedness of a Sample: each float field is a nonnegative decimal. -/
def wfS (smp : Sample) : Bool :=
  wfQ smp.latency_ms && wfQ smp.rx_bitrate_mbps && wfQ smp.tx_bitrate_mbps &&
    wfQ smp.tx_power_dbm

/-- Zero-padded two-digit field of `strftime`. -/
def pad2 (n : ℕ) : List Char :=
  padZ 2 (natStr n)

/-- Zero-padded four-digit field of `strftime`. -/
def pad4 (n : ℕ) : List Char :=
  padZ 4 (natStr n)

/-- The timestamp string `datetime.now().strftime(%Y-%m-%d %H:%M:%S)` for a
wall-clock instant given as year, month, day, hour, minute, second. -/
def fmtTs (y mo d h mi s : ℕ) : List Char :=
  pad4 y ++ '-' :: pad2 mo ++ '-' :: pad2 d ++ ' ' ::
    pad2 h ++ ':' :: pad2 mi ++ ':' :: pad2 s

/-- Embedding of `collect_data_sample`: run the three extractors on the
captured outputs of the three commands (their concurrent execution shares
no state, so the merge is deterministic), stamp with the formatted current
time, and build the sample dict.  A ValueError raised inside an extractor
re-raises at the `future.result()` call. -/
def collect_data_sample (now : ℕ × ℕ × ℕ × ℕ × ℕ × ℕ)
    (pingOut linkOut infoOut : List Char) : Except Unit Sample := do
  let lat ← get_ping_latency pingOut
  let li ← get_link_info linkOut
  let ii ← get_interface_info infoOut
  pure ⟨fmtTs now.1 now.2.1 now.2.2.1 now.2.2.2.1 now.2.2.2.2.1 now.2.2.2.2.2,
    lat, li.1, li.2.1, li.2.2, ii.1, ii.2.1, ii.2.2.1, ii.2.2.2⟩

/-- Ceiling of `D / I` on naturals. -/
def ceilDiv (D I : ℕ) : ℕ :=
  (D + I - 1) / I

/-!
Model of the `run` loop (`while self.running and time.time() < end_time`).
Time is measured in whole time units from the start of the loop; `cost n`
is the time tick `n` spends collecting its sample, `I` the `time.sleep`
interval after each tick, `D` the configured duration.  `cancel n` is the
value of `not self.running` observed at the top of iteration `n` (the
interrupt handler only flips `running` to `False`, and the flag is polled
at the loop head, so an in-flight tick always finishes).  `wOk n` tells
whether appending tick `n`'s row succeeds; a failed append raises out of
`write_data_row` through the loop (`Except.error n`), since the loop body
catches nothing but `KeyboardInterrupt`.  The result counts the appended
samples.  The fuel exceeds the largest possible number of iterations; when
it runs out the loop reports the samples appended so far, exactly as a
condition-failure exit does.
-/

/-- One-step unfolding of the monitoring loop, bounded by fuel. -/
def loopAux (D I : ℕ) (cost : ℕ → ℕ) (cancel wOk : ℕ → Bool) :
    ℕ → ℕ → ℕ → ℕ → Except ℕ ℕ
  | 0, _, _, c => Except.ok c
  | fuel + 1, t, n, c =>
    if cancel n = true then Except.ok c
    else if t < D then
      (if wOk n = true then
        loopAux D I cost cancel wOk fuel (t + cost n + I) (n + 1) (c + 1)
      else Except.error n)
    else Except.ok c

/-- Fuel of the monitoring loop run. -/
def monitorFuel (D I : ℕ) : ℕ :=
  ceilDiv D I + 1

/-- Embedding of the `run` sampling loop, from loop entry (header already
written, start time captured): number of appended samples on a clean exit,
or the index of the tick whose append raised. -/
def monitorRun (D I : ℕ) (cost : ℕ → ℕ) (cancel wOk : ℕ → Bool) : Except ℕ ℕ :=
  loopAux D I cost cancel wOk (monitorFuel D I) 0 0 0

/-- Elapsed time at the top of iteration `n` of the loop. -/
def tickStart (I : ℕ) (cost : ℕ → ℕ) : ℕ → ℕ
  | 0 => 0
  | n + 1 => tickStart I cost n + cost n + I

/-- Count of appended samples reported by a loop result (zero for a raised
append error). -/
def runCount (r : Except ℕ ℕ) : ℕ :=
  match r with
  | Except.ok c => c
  | Except.error _ => 0

/-- Whether a loop result is a clean (non-raising) termination. -/
def runOk (r : Except ℕ ℕ) : Bool :=
  match r with
  | Except.ok _ => true
  | Except.error _ => false

/-- The interpolated latency token of the per-tick progress line
`f"... Latest ping: {data['latency_ms'] or 'N/A'}ms"`: Python `or` takes
the right operand whenever the left is falsy, which for the latency field
is both `None` and the float `0.0`. -/
def progressLatency (lat : Option ℚ) : List Char :=
  match lat with
  | none => "N/A".toList
  | some q => if q = 0 then "N/A".toList else renderFloat q

/-- Concrete sample with every field present (values as reduced rationals),
used to instantiate the universally quantified theorems. -/
def sampleA : Sample :=
  ⟨"2025-06-01 12:00:00".toList,
    some (Rat.mk' 117 5 (by decide) (by decide)),
    some (Rat.mk' 8667 10 (by decide) (by decide)),
    none, some (-54), some 5180, some 80, some 5210,
    some (Rat.mk' 22 1 (by decide) (by decide))⟩

/-- Concrete sample with every optional field absent. -/
def sampleB : Sample :=
  ⟨"2025-06-01 12:00:05".toList, none, none, none, none, none, none, none, none⟩

/-! Lemmas about digit strings and the decimal rendering. -/

theorem charVal_digitChar {d : ℕ} (h : d < 10) : charVal (digitChar d) = d := by
  interval_cases d <;> rfl

theorem digitChar_isDigit (d : ℕ) : (digitChar d).isDigit = true := by
  unfold digitChar
  split <;> first | rfl | (split <;> first | rfl | (split <;> first | rfl |
    (split <;> first | rfl | (split <;> first | rfl | (split <;> first | rfl |
    (split <;> first | rfl | (split <;> first | rfl | (split <;> rfl))))))))

theorem digitsVal_append_singleton (xs : List ℕ) (d : ℕ) :
    digitsVal (xs ++ [d]) = 10 * digitsVal xs + d := by
  unfold digitsVal
  rw [List.foldl_append]
  rfl

theorem digitsVal_reverse (l : List ℕ) :
    digitsVal l.reverse = Nat.ofDigits 10 l := by
  induction l with
  | nil => rfl
  | cons d t ih =>
    rw [List.reverse_cons, digitsVal_append_singleton, ih, Nat.ofDigits_cons]
    ring

theorem strNatVal_natStr (n : ℕ) : strNatVal (natStr n) = n := by
  unfold natStr
  by_cases h : n = 0
  · simp [h, strNatVal, digitsVal, charVal]
  · rw [if_neg h]
    unfold strNatVal
    rw [List.map_reverse, List.map_map]
    have hmap : (Nat.digits 10 n).map (charVal ∘ digitChar) = Nat.digits 10 n := by
      have := List.map_congr_left (l := Nat.digits 10 n)
        (f := charVal ∘ digitChar) (g := id) (fun d hd =>
          charVal_digitChar (Nat.digits_lt_base (by norm_num) hd))
      rw [this, List.map_id]
    rw [hmap, digitsVal_reverse]
    exact_mod_cast Nat.ofDigits_digits 10 n

theorem natStr_ne_nil (n : ℕ) : natStr n ≠ [] := by
  unfold natStr
  by_cases h : n = 0
  · simp [h]
  · rw [if_neg h]
    simp [Nat.digits_ne_nil_iff_ne_zero.mpr h]

theorem natStr_all_digit {n : ℕ} {c : Char} (hc : c ∈ natStr n) :
    c.isDigit = true := by
  unfold natStr at hc
  by_cases h : n = 0
  · rw [if_pos h] at hc
    simp at hc
    subst hc
    rfl
  · rw [if_neg h] at hc
    rw [List.mem_reverse, List.mem_map] at hc
    obtain ⟨d, _, rfl⟩ := hc
    exact digitChar_isDigit d

theorem natStr_length_le {n k : ℕ} (hn : n < 10 ^ k) (hk : 1 ≤ k) :
    (natStr n).length ≤ k := by
  unfold natStr
  by_cases h : n = 0
  · simpa [h] using hk
  · rw [if_neg h]
    rw [List.length_reverse, List.length_map]
    rw [Nat.digits_len 10 n (by norm_num) h]
    exact Nat.log_lt_of_lt_pow h hn

theorem digitsVal_replicate_zero (j : ℕ) (l : List ℕ) :
    digitsVal (List.replicate j 0 ++ l) = digitsVal l := by
  induction j with
  | zero => rfl
  | succ m ih =>
    have : List.replicate (m + 1) 0 ++ l = 0 :: (List.replicate m 0 ++ l) := by
      simp [List.replicate_succ]
    rw [this]
    unfold digitsVal at ih ⊢
    simpa using ih

theorem strNatVal_padZ (k : ℕ) (s : List Char) :
    strNatVal (padZ k s) = strNatVal s := by
  unfold padZ strNatVal
  rw [List.map_append]
  have : (List.replicate (k - s.length) '0').map charVal
      = List.replicate (k - s.length) 0 := by
    rw [List.map_replicate]
    rfl
  rw [this, digitsVal_replicate_zero]

theorem padZ_length {k : ℕ} {s : List Char} (h : s.length ≤ k) :
    (padZ k s).length = k := by
  unfold padZ
  rw [List.length_append, List.length_replicate]
  omega

theorem padZ_all_digit {k : ℕ} {s : List Char} {c : Char}
    (hs : ∀ x ∈ s, x.isDigit = true) (hc : c ∈ padZ k s) : c.isDigit = true := by
  unfold padZ at hc
  rw [List.mem_append] at hc
  rcases hc with hc | hc
  · rw [List.eq_of_mem_replicate hc]
    rfl
  · exact hs c hc

theorem takeWhile_append_cons {p : Char → Bool} {A B : List Char} {x : Char}
    (hA : ∀ a ∈ A, p a = true) (hx : p x = false) :
    (A ++ x :: B).takeWhile p = A ∧ (A ++ x :: B).dropWhile p = x :: B := by
  induction A with
  | nil => simp [List.takeWhile, List.dropWhile, hx]
  | cons a t ih =>
    have ha : p a = true := hA a (by simp)
    have iht := ih (fun b hb => hA b (by simp [hb]))
    simp [List.takeWhile, List.dropWhile, ha, iht.1, iht.2]

theorem digit_bne_dot {c : Char} (h : c.isDigit = true) : (c != '.') = true := by
  rw [bne_iff_ne]
  intro hc
  subst hc
  simp [Char.isDigit] at h

theorem count_dot_append {A B : List Char}
    (hA : ∀ a ∈ A, a.isDigit = true) (hB : ∀ b ∈ B, b.isDigit = true) :
    (A ++ '.' :: B).count '.' = 1 := by
  have hnA : '.' ∉ A := fun h => by simpa using hA '.' h
  have hnB : '.' ∉ B := fun h => by simpa using hB '.' h
  rw [List.count_append, List.count_cons_self,
    List.count_eq_zero.mpr hnA, List.count_eq_zero.mpr hnB]

theorem pyFloatQ_split {A B : List Char}
    (hA : ∀ a ∈ A, a.isDigit = true) (hB : ∀ b ∈ B, b.isDigit = true)
    (hAne : A ≠ []) :
    pyFloatQ (A ++ '.' :: B)
      = some ((strNatVal A : ℚ) + (strNatVal B : ℚ) / 10 ^ B.length) := by
  have hsplit := takeWhile_append_cons (p := fun c => c != '.')
    (A := A) (B := B) (x := '.') (fun a ha => digit_bne_dot (hA a ha)) (by simp)
  have hany : (A ++ '.' :: B).any Char.isDigit = true := by
    obtain ⟨a, t, rfl⟩ : ∃ a t, A = a :: t := by
      cases A with
      | nil => exact absurd rfl hAne
      | cons a t => exact ⟨a, t, rfl⟩
    simp [hA a (by simp)]
  have hguard : (decide ((A ++ '.' :: B).count '.' ≤ 1)
      && (A ++ '.' :: B).any Char.isDigit) = true := by
    rw [count_dot_append hA hB, hany]
    simp
  unfold pyFloatQ
  rw [if_pos hguard, hsplit.1, hsplit.2]
  simp

theorem pyFloatQ_renderNN {q : ℚ} (hnum : 0 ≤ q.num)
    (hdvd : q.den ∣ 10 ^ kOf q.den) :
    pyFloatQ (renderNN q) = some q := by
  set k := kOf q.den with hk
  set d := q.den with hdd
  set nm := q.num.toNat with hnm
  have hd0 : d ≠ 0 := q.den_nz
  obtain ⟨e, he⟩ := hdvd
  have he0 : e ≠ 0 := by
    intro h
    rw [h, mul_zero] at he
    exact absurd he (by positivity)
  set m := nm * 10 ^ k / d with hmdef
  have hm : m = nm * e := by
    rw [hmdef, he]
    have : nm * (d * e) = d * (nm * e) := by ring
    rw [this, Nat.mul_div_cancel_left _ (Nat.pos_of_ne_zero hd0)]
  set ip := m / 10 ^ k with hip
  set fp := m % 10 ^ k with hfp
  have hfp_lt : fp < 10 ^ k := Nat.mod_lt _ (by positivity)
  have hrender : renderNN q = natStr ip ++ '.' :: padZ k (natStr fp) := rfl
  have hAdig : ∀ a ∈ natStr ip, a.isDigit = true := fun a ha => natStr_all_digit ha
  have hBdig : ∀ b ∈ padZ k (natStr fp), b.isDigit = true :=
    fun b hb => padZ_all_digit (fun x hx => natStr_all_digit hx) hb
  rw [hrender, pyFloatQ_split hAdig hBdig (natStr_ne_nil ip)]
  rw [strNatVal_natStr ip, strNatVal_padZ, strNatVal_natStr fp]
  have hcast : ((nm : ℕ) : ℚ) = (q.num : ℚ) := by
    rw [hnm]
    exact_mod_cast congrArg (Int.cast : ℤ → ℚ) (Int.toNat_of_nonneg hnum)
  have hq : (q : ℚ) = (nm : ℚ) / (d : ℚ) := by
    rw [hcast, hdd]
    exact (Rat.num_div_den q).symm
  have hmd : m * d = nm * 10 ^ k := by
    rw [hm, he]
    ring
  have hmod : ip * 10 ^ k + fp = m := by
    rw [hip, hfp]
    exact Nat.div_add_mod' m (10 ^ k)
  congr 1
  by_cases hk0 : k = 0
  · have hd1 : d = 1 := by
      have h1 : d * e = 1 := by
        rw [hk0, pow_zero] at he
        exact he.symm
      exact Nat.eq_one_of_mul_eq_one_right h1
    have hfp0 : fp = 0 := by
      rw [hfp, hk0, pow_zero, Nat.mod_one]
    have hipm : ip = m := by
      rw [hip, hk0, pow_zero, Nat.div_one]
    have hmnm : m = nm := by
      have h2 := hmd
      rw [hd1, mul_one, hk0, pow_zero, mul_one] at h2
      exact h2
    rw [hfp0, hipm, hmnm, hq, hd1]
    push_cast
    simp
  · have hlen : (padZ k (natStr fp)).length = k :=
      padZ_length (natStr_length_le hfp_lt (Nat.one_le_iff_ne_zero.mpr hk0))
    have h10 : ((10 : ℚ)) ^ k ≠ 0 := by positivity
    have hdQ : ((d : ℕ) : ℚ) ≠ 0 := Nat.cast_ne_zero.mpr hd0
    have hIP : (ip : ℚ) + (fp : ℚ) / 10 ^ k = ((m : ℕ) : ℚ) / ((10 : ℚ)) ^ k := by
      rw [eq_div_iff h10]
      have hexp : ((ip : ℚ) + (fp : ℚ) / 10 ^ k) * 10 ^ k = (ip : ℚ) * 10 ^ k + fp := by
        field_simp
      rw [hexp]
      exact_mod_cast congrArg (Nat.cast : ℕ → ℚ) hmod
    rw [hlen, hq, hIP, div_eq_div_iff h10 hdQ]
    exact_mod_cast hmd

/-! Lemmas about the serialized cells and rows. -/

theorem renderNN_shape (q : ℚ) :
    ∃ c t, renderNN q = c :: t ∧ c.isDigit = true := by
  have hne := natStr_ne_nil (q.num.toNat * 10 ^ kOf q.den / q.den / 10 ^ kOf q.den)
  cases hA : natStr (q.num.toNat * 10 ^ kOf q.den / q.den / 10 ^ kOf q.den) with
  | nil => exact absurd hA hne
  | cons c t =>
    refine ⟨c, t ++ '.' :: padZ (kOf q.den)
      (natStr (q.num.toNat * 10 ^ kOf q.den / q.den % 10 ^ kOf q.den)), ?_, ?_⟩
    · show natStr _ ++ '.' :: padZ _ (natStr _) = _
      rw [hA]
      rfl
    · exact natStr_all_digit (hA ▸ List.mem_cons_self c t)

theorem renderFloat_of_nonneg {q : ℚ} (hnum : 0 ≤ q.num) :
    renderFloat q = renderNN q := by
  unfold renderFloat
  rw [if_neg (not_lt.mpr (Rat.num_nonneg.mp hnum))]

theorem parseNat_natStr (n : ℕ) : parseNat (natStr n) = some n := by
  unfold parseNat
  rw [if_pos ⟨natStr_ne_nil n, List.all_eq_true.mpr
    (fun c hc => natStr_all_digit hc)⟩, strNatVal_natStr]

theorem parseCellQ_cons (c : Char) (ds : List Char) :
    parseCellQ (c :: ds) = (pyFloatQ (c :: ds)).map some := rfl

theorem parseCellZ_cons (c : Char) (ds : List Char) :
    parseCellZ (c :: ds) =
      if c = '-' then (parseNat ds).map (fun n => some (-(n : ℤ)))
      else (parseNat (c :: ds)).map (fun n => some ((n : ℕ) : ℤ)) := rfl

theorem parseCellQ_cellOf {o : Option ℚ} (h : wfQ o = true) :
    parseCellQ (cellOf (FVal.qv o)) = some o := by
  cases o with
  | none => rfl
  | some q =>
    unfold wfQ at h
    rw [Bool.and_eq_true, decide_eq_true_eq, decide_eq_true_eq] at h
    have hrf : cellOf (FVal.qv (some q)) = renderNN q := renderFloat_of_nonneg h.1
    obtain ⟨c, t, hct, _⟩ := renderNN_shape q
    rw [hrf, hct, parseCellQ_cons, ← hct, pyFloatQ_renderNN h.1 h.2]
    rfl

theorem digit_ne_minus {c : Char} (h : c.isDigit = true) : c ≠ '-' := by
  intro hc
  subst hc
  simp [Char.isDigit] at h

theorem parseCellZ_cellOf (o : Option ℤ) :
    parseCellZ (cellOf (FVal.zv o)) = some o := by
  cases o with
  | none => rfl
  | some z =>
    show parseCellZ (renderInt z) = some (some z)
    unfold renderInt
    by_cases hz : z < 0
    · rw [if_pos hz, parseCellZ_cons, if_pos rfl, parseNat_natStr]
      simp [Int.ofNat_natAbs_of_nonpos (le_of_lt hz)]
    · rw [if_neg hz]
      have hne := natStr_ne_nil z.natAbs
      cases hA : natStr z.natAbs with
      | nil => exact absurd hA hne
      | cons c t =>
        have hcd : c.isDigit = true := natStr_all_digit (hA ▸ List.mem_cons_self c t)
        rw [parseCellZ_cons, if_neg (digit_ne_minus hcd), ← hA, parseNat_natStr]
        simp [Int.natAbs_of_nonneg (not_lt.mp hz)]

theorem write_data_row_recordOf (smp : Sample) :
    write_data_row (recordOf smp) = Except.ok
      [ smp.timestamp, cellOf (FVal.qv smp.latency_ms),
        cellOf (FVal.qv smp.rx_bitrate_mbps), cellOf (FVal.qv smp.tx_bitrate_mbps),
        cellOf (FVal.zv smp.signal_strength_dbm), cellOf (FVal.zv smp.frequency_mhz),
        cellOf (FVal.zv smp.width_mhz), cellOf (FVal.zv smp.centre_frequency_mhz),
        cellOf (FVal.qv smp.tx_power_dbm) ] := rfl

theorem rowCells_eq (smp : Sample) :
    rowCells smp =
      [ smp.timestamp, cellOf (FVal.qv smp.latency_ms),
        cellOf (FVal.qv smp.rx_bitrate_mbps), cellOf (FVal.qv smp.tx_bitrate_mbps),
        cellOf (FVal.zv smp.signal_strength_dbm), cellOf (FVal.zv smp.frequency_mhz),
        cellOf (FVal.zv smp.width_mhz), cellOf (FVal.zv smp.centre_frequency_mhz),
        cellOf (FVal.qv smp.tx_power_dbm) ] := by
  unfold rowCells
  rw [write_data_row_recordOf]

theorem parseRow_nine (ts c1 c2 c3 c4 c5 c6 c7 c8 : List Char) :
    parseRow [ts, c1, c2, c3, c4, c5, c6, c7, c8] =
      (parseCellQ c1).bind (fun l =>
      (parseCellQ c2).bind (fun rx =>
      (parseCellQ c3).bind (fun tx =>
      (parseCellZ c4).bind (fun sg =>
      (parseCellZ c5).bind (fun f =>
      (parseCellZ c6).bind (fun w =>
      (parseCellZ c7).bind (fun cf =>
      (parseCellQ c8).bind (fun tp =>
        some ⟨ts, l, rx, tx, sg, f, w, cf, tp⟩)))))))) := rfl

theorem parseRow_rowCells {smp : Sample} (h : wfS smp = true) :
    parseRow (rowCells smp) = some smp := by
  unfold wfS at h
  rw [Bool.and_eq_true, Bool.and_eq_true, Bool.and_eq_true] at h
  obtain ⟨⟨⟨h1, h2⟩, h3⟩, h4⟩ := h
  rw [rowCells_eq, parseRow_nine]
  simp only [parseCellQ_cellOf h1, parseCellQ_cellOf h2, parseCellQ_cellOf h3,
    parseCellQ_cellOf h4, parseCellZ_cellOf, Option.some_bind]

/-! Lemmas about the sampling loop. -/

theorem lt_ceilDiv_of_mul_lt {c I D : ℕ} (hI : 0 < I) (h : c * I < D) :
    c < ceilDiv D I := by
  have h1 : (c + 1) * I = c * I + I := by ring
  have h2 : (c + 1) * I ≤ D + I - 1 := by omega
  have := (Nat.le_div_iff_mul_le hI).mpr h2
  unfold ceilDiv
  omega

theorem loopAux_count_le {D I : ℕ} {cost : ℕ → ℕ} {cancel wOk : ℕ → Bool}
    (hI : 0 < I) :
    ∀ (fuel t n c : ℕ), c * I ≤ t → c ≤ ceilDiv D I →
      runCount (loopAux D I cost cancel wOk fuel t n c) ≤ ceilDiv D I := by
  intro fuel
  induction fuel with
  | zero => intro t n c _ hc; exact hc
  | succ f ih =>
    intro t n c ht hc
    unfold loopAux
    by_cases hcan : cancel n = true
    · rw [if_pos hcan]; exact hc
    · rw [if_neg hcan]
      by_cases htD : t < D
      · rw [if_pos htD]
        by_cases hw : wOk n = true
        · rw [if_pos hw]
          have hcI : c * I < D := lt_of_le_of_lt ht htD
          have hc1 : c + 1 ≤ ceilDiv D I := lt_ceilDiv_of_mul_lt hI hcI
          have ht1 : (c + 1) * I ≤ t + cost n + I := by
            have : (c + 1) * I = c * I + I := by ring
            omega
          exact ih _ _ _ ht1 hc1
        · rw [if_neg hw]
          exact Nat.zero_le _
      · rw [if_neg htD]; exact hc

theorem loopAux_ok_ge {D I : ℕ} {cost : ℕ → ℕ} {cancel : ℕ → Bool} :
    ∀ (fuel t n c : ℕ),
      runOk (loopAux D I cost cancel (fun _ => true) fuel t n c) = true ∧
        c ≤ runCount (loopAux D I cost cancel (fun _ => true) fuel t n c) := by
  intro fuel
  induction fuel with
  | zero => intro t n c; exact ⟨rfl, le_refl c⟩
  | succ f ih =>
    intro t n c
    unfold loopAux
    by_cases hcan : cancel n = true
    · rw [if_pos hcan]; exact ⟨rfl, le_refl c⟩
    · rw [if_neg hcan]
      by_cases htD : t < D
      · rw [if_pos htD, if_pos rfl]
        refine ⟨(ih _ _ _).1, ?_⟩
        exact le_trans (Nat.le_succ c) (ih (t + cost n + I) (n + 1) (c + 1)).2
      · rw [if_neg htD]; exact ⟨rfl, le_refl c⟩

theorem ceilDiv_eq_ceil {D I : ℕ} (hI : 0 < I) :
    ceilDiv D I = Nat.ceil ((D : ℚ) / (I : ℚ)) := by
  have hIQ : (0 : ℚ) < (I : ℚ) := by exact_mod_cast hI
  apply le_antisymm
  · rcases Nat.eq_zero_or_pos (ceilDiv D I) with h0 | hpos
    · rw [h0]; exact Nat.zero_le _
    · set n := ceilDiv D I with hn
      have hmul : n * I ≤ D + I - 1 := by
        rw [hn]
        unfold ceilDiv
        exact Nat.div_mul_le_self _ _
      have hIn : I ≤ n * I := by
        calc I = 1 * I := (one_mul I).symm
        _ ≤ n * I := Nat.mul_le_mul_right I hpos
      have heq : (n - 1) * I + I = n * I := by
        have h1 : n - 1 + 1 = n := Nat.succ_pred_eq_of_pos hpos
        calc (n - 1) * I + I = (n - 1 + 1) * I := by ring
        _ = n * I := by rw [h1]
      have hlt : (n - 1) * I < D := by omega
      have : n - 1 + 1 ≤ Nat.ceil ((D : ℚ) / (I : ℚ)) := by
        rw [Nat.add_one_le_ceil_iff, lt_div_iff₀ hIQ]
        exact_mod_cast hlt
      omega
  · rw [Nat.ceil_le, div_le_iff₀ hIQ]
    have hmod := Nat.div_add_mod (D + I - 1) I
    have hmlt : (D + I - 1) % I < I := Nat.mod_lt _ hI
    have hD : D ≤ ceilDiv D I * I := by
      unfold ceilDiv
      have hcomm : (D + I - 1) / I * I = I * ((D + I - 1) / I) := Nat.mul_comm _ _
      omega
    exact_mod_cast hD

theorem tickStart_ge (I : ℕ) (cost : ℕ → ℕ) : ∀ k, k * I ≤ tickStart I cost k := by
  intro k
  induction k with
  | zero => simp [tickStart]
  | succ j ih =>
    have h1 : (j + 1) * I = j * I + I := by ring
    unfold tickStart
    omega

theorem loopAux_cancelAt {D I : ℕ} {cost : ℕ → ℕ} (k : ℕ)
    (hT : ∀ m, m ≤ k → tickStart I cost m < D) :
    ∀ (fuel j c : ℕ), j ≤ k + 1 → k + 1 ≤ j + fuel →
      loopAux D I cost (fun n => decide (k < n)) (fun _ => true) fuel
        (tickStart I cost j) j c = Except.ok (c + (k + 1 - j)) := by
  intro fuel
  induction fuel with
  | zero =>
    intro j c hj hfuel
    have : j = k + 1 := by omega
    subst this
    simp [loopAux]
  | succ f ih =>
    intro j c hj hfuel
    by_cases hjk : j = k + 1
    · subst hjk
      unfold loopAux
      rw [if_pos (by simp)]
      simp
    · have hjle : j ≤ k := by omega
      unfold loopAux
      rw [if_neg (by simp; omega), if_pos (hT j hjle), if_pos rfl]
      have hstep : tickStart I cost j + cost j + I = tickStart I cost (j + 1) := rfl
      rw [hstep, ih (j + 1) (c + 1) (by omega) (by omega)]
      congr 1
      omega

theorem monitorRun_cancelAt {D I : ℕ} {cost : ℕ → ℕ} {k : ℕ} (hI : 0 < I)
    (hT : ∀ m, m ≤ k → tickStart I cost m < D) :
    monitorRun D I cost (fun n => decide (k < n)) (fun _ => true)
      = Except.ok (k + 1) := by
  have hkD : k * I < D := lt_of_le_of_lt (tickStart_ge I cost k) (hT k (le_refl k))
  have hk : k < ceilDiv D I := lt_ceilDiv_of_mul_lt hI hkD
  unfold monitorRun monitorFuel
  have h0 : tickStart I cost 0 = 0 := rfl
  have hmain := loopAux_cancelAt k hT (ceilDiv D I + 1) 0 0 (by omega) (by omega)
  rw [h0] at hmain
  simpa using hmain

/-! Lemmas about the extractors and the search. -/

theorem floatConv_none : floatConv none = Except.ok none := rfl

theorem floatConv_some_of {cap : List Char} {v : ℚ} (h : pyFloatQ cap = some v) :
    floatConv (some cap) = Except.ok (some v) := by
  show (match pyFloatQ cap with
    | some v => Except.ok (some v)
    | none => Except.error ()) = Except.ok (some v)
  rw [h]

theorem floatConv_error_iff {o : Option (List Char)} :
    floatConv o = Except.error ()
      ↔ ∃ cap, o = some cap ∧ pyFloatQ cap = none := by
  cases o with
  | none => simp [floatConv]
  | some cap =>
    cases h : pyFloatQ cap with
    | none => simp [floatConv, h]
    | some v => simp [floatConv, h]

theorem floatConv_ok_bind {α : Type} {o : Option (List Char)}
    {f : Option ℚ → Except Unit α} :
    (floatConv o >>= f) = Except.error ()
      ↔ (floatConv o = Except.error ()
          ∨ ∃ v, floatConv o = Except.ok v ∧ f v = Except.error ()) := by
  cases h : floatConv o with
  | error e =>
    cases e
    simp [h]
    rfl
  | ok v =>
    constructor
    · intro hb
      exact Or.inr ⟨v, rfl, hb⟩
    · intro hb
      rcases hb with hb | ⟨w, hw, hfw⟩
      · exact absurd hb (by simp)
      · cases hw
        exact hfw

theorem get_ping_latency_error_iff {out : List Char} :
    get_ping_latency out = Except.error ()
      ↔ ∃ cap, searchG matchTimeAt out = some cap ∧ pyFloatQ cap = none := by
  unfold get_ping_latency
  exact floatConv_error_iff

theorem get_link_info_error_iff {out : List Char} :
    get_link_info out = Except.error ()
      ↔ ((∃ cap, searchG matchRxAt out = some cap ∧ pyFloatQ cap = none)
        ∨ (∃ cap, searchG matchTxAt out = some cap ∧ pyFloatQ cap = none)) := by
  unfold get_link_info
  rw [floatConv_ok_bind, floatConv_error_iff]
  constructor
  · intro h
    rcases h with h | ⟨v, _, hf⟩
    · exact Or.inl h
    · rw [floatConv_ok_bind, floatConv_error_iff] at hf
      rcases hf with hf | ⟨w, _, hfw⟩
      · exact Or.inr hf
      · exact absurd hfw (by simp [pure, Except.pure])
  · intro h
    rcases h with h | h
    · exact Or.inl h
    · cases hrx : floatConv (searchG matchRxAt out) with
      | error e =>
        cases e
        rw [← floatConv_error_iff]
        exact Or.inl hrx
      | ok v =>
        refine Or.inr ⟨v, rfl, ?_⟩
        rw [floatConv_ok_bind, floatConv_error_iff]
        exact Or.inl h

theorem get_interface_info_error_iff {out : List Char} :
    get_interface_info out = Except.error ()
      ↔ ∃ cap, searchG matchPowerAt out = some cap ∧ pyFloatQ cap = none := by
  unfold get_interface_info
  rw [floatConv_ok_bind, floatConv_error_iff]
  constructor
  · intro h
    rcases h with h | ⟨v, _, hf⟩
    · exact h
    · exact absurd hf (by simp [pure, Except.pure])
  · intro h
    exact Or.inl h

theorem pyFloatQ_none_iff {cs : List Char} :
    pyFloatQ cs = none
      ↔ ¬(cs.count '.' ≤ 1 ∧ cs.any Char.isDigit = true) := by
  unfold pyFloatQ
  by_cases h : (decide (cs.count '.' ≤ 1) && cs.any Char.isDigit) = true
  · rw [if_pos h]
    rw [Bool.and_eq_true, decide_eq_true_eq] at h
    exact iff_of_false (by simp) (not_not_intro h)
  · rw [if_neg h]
    rw [Bool.and_eq_true, decide_eq_true_eq] at h
    exact iff_of_true rfl h

theorem litM_startsWith {pat : List Char} :
    ∀ {s r : List Char}, litM pat s = some r → startsWith pat s = true := by
  induction pat with
  | nil => intro s r _; rfl
  | cons c cs ih =>
    intro s r h
    cases s with
    | nil => exact absurd h (by simp [litM])
    | cons d ds =>
      unfold litM at h
      by_cases hcd : c = d
      · rw [if_pos hcd] at h
        unfold startsWith
        rw [hcd]
        simp [ih h]
      · rw [if_neg hcd] at h
        exact absurd h (by simp)

theorem matchTimeAt_startsWith {s cap : List Char} (h : matchTimeAt s = some cap) :
    startsWith timeLit s = true := by
  unfold matchTimeAt at h
  cases hl : litM timeLit s with
  | none => rw [hl] at h; exact absurd h (by simp)
  | some s1 => exact litM_startsWith hl

theorem searchG_eq_none {m : List Char → Option (List Char)} {pat : List Char}
    (hm : ∀ s cap, m s = some cap → startsWith pat s = true) :
    ∀ {out : List Char}, hasSub pat out = false → searchG m out = none := by
  intro out
  induction out with
  | nil =>
    intro h
    unfold hasSub at h
    unfold searchG
    cases hms : m [] with
    | none => rfl
    | some cap => rw [hm [] cap hms] at h; exact absurd h (by simp)
  | cons c t ih =>
    intro h
    unfold hasSub at h
    rw [Bool.or_eq_false_iff] at h
    unfold searchG
    cases hms : m (c :: t) with
    | none => exact ih h.2
    | some cap => rw [hm _ cap hms] at h; exact absurd h.1 (by simp)

theorem renderFloat_ne_na (q : ℚ) : renderFloat q ≠ "N/A".toList := by
  have hNA : "N/A".toList = 'N' :: '/' :: 'A' :: [] := rfl
  unfold renderFloat
  by_cases hq : q < 0
  · rw [if_pos hq, hNA]
    intro h
    injection h with h1 _
    exact absurd h1 (by decide)
  · rw [if_neg hq, hNA]
    obtain ⟨c, t, hct, hdig⟩ := renderNN_shape q
    rw [hct]
    intro h
    injection h with h1 _
    rw [h1] at hdig
    exact absurd hdig (by decide)

theorem renderFloat_ne_nil (q : ℚ) : renderFloat q ≠ [] := by
  unfold renderFloat
  by_cases hq : q < 0
  · rw [if_pos hq]
    exact List.cons_ne_nil _ _
  · rw [if_neg hq]
    obtain ⟨c, t, hct, _⟩ := renderNN_shape q
    rw [hct]
    exact List.cons_ne_nil _ _

theorem renderInt_ne_nil (z : ℤ) : renderInt z ≠ [] := by
  unfold renderInt
  by_cases hz : z < 0
  · rw [if_pos hz]
    exact List.cons_ne_nil _ _
  · rw [if_neg hz]
    exact natStr_ne_nil _

theorem except_bind_ok_inv {α β : Type} {e : Except Unit α} {f : α → Except Unit β}
    {b : β} (h : (e >>= f) = Except.ok b) :
    ∃ a, e = Except.ok a ∧ f a = Except.ok b := by
  cases e with
  | error u => exact Except.noConfusion h
  | ok a => exact ⟨a, rfl, h⟩

theorem loopAux_errAt {D I : ℕ} {cost : ℕ → ℕ} {cancel wOk : ℕ → Bool} (k : ℕ)
    (hT : ∀ m, m ≤ k → tickStart I cost m < D)
    (hcan : ∀ m, m ≤ k → cancel m = false)
    (hw : ∀ m, m < k → wOk m = true) (hwk : wOk k = false) :
    ∀ (fuel j c : ℕ), j ≤ k → k + 1 ≤ j + fuel →
      loopAux D I cost cancel wOk fuel (tickStart I cost j) j c
        = Except.error k := by
  intro fuel
  induction fuel with
  | zero =>
    intro j c hj hfuel
    omega
  | succ f ih =>
    intro j c hj hfuel
    unfold loopAux
    rw [if_neg (by rw [hcan j hj]; simp), if_pos (hT j hj)]
    by_cases hjk : j = k
    · subst hjk
      rw [if_neg (by rw [hwk]; simp)]
    · have hjlt : j < k := by omega
      rw [if_pos (hw j hjlt)]
      have hstep : tickStart I cost j + cost j + I = tickStart I cost (j + 1) := rfl
      rw [hstep]
      exact ih (j + 1) (c + 1) (by omega) (by omega)

/-! Claim theorems. -/

/-- C1 counterexample: the claim says no parse exception ever propagates and
converting a regex-matched substring always succeeds, but on the raw text
`time=1.2.3` the pattern `time=([0-9.]+)` captures `1.2.3`, `float` raises
ValueError, and the exception propagates out of `get_ping_latency`. -/
theorem claim_C1_counterexample :
    get_ping_latency ("time=1.2.3".toList) = Except.error () := rfl

/-- C1 (amended): each extractor returns, for each field, a numeric value or
absent, except that a parse exception propagates exactly when a
`[0-9.]+`-captured substring fails `float` conversion — which happens exactly
when the capture has more than one dot or no digit.  Integer conversions of
`\d+` and `-?[0-9]+` captures never fail, so `get_link_info` can only raise
through the two bitrate captures and `get_interface_info` only through the
txpower capture. -/
theorem claim_C1 (out : List Char) :
    (get_ping_latency out = Except.error ()
      ↔ ∃ cap, searchG matchTimeAt out = some cap ∧ pyFloatQ cap = none)
    ∧ (get_link_info out = Except.error ()
      ↔ ((∃ cap, searchG matchRxAt out = some cap ∧ pyFloatQ cap = none)
        ∨ (∃ cap, searchG matchTxAt out = some cap ∧ pyFloatQ cap = none)))
    ∧ (get_interface_info out = Except.error ()
      ↔ ∃ cap, searchG matchPowerAt out = some cap ∧ pyFloatQ cap = none)
    ∧ (∀ cs : List Char, pyFloatQ cs = none
      ↔ ¬(cs.count '.' ≤ 1 ∧ cs.any Char.isDigit = true)) :=
  ⟨get_ping_latency_error_iff, get_link_info_error_iff,
    get_interface_info_error_iff, fun _ => pyFloatQ_none_iff⟩

/-- C1 witness: the amended characterisation instantiated at a concrete raw
text with no match at all. -/
theorem claim_C1_witness :
    get_ping_latency ("Request timed out.".toList) = Except.error ()
      ↔ ∃ cap, searchG matchTimeAt ("Request timed out.".toList) = some cap
          ∧ pyFloatQ cap = none :=
  (claim_C1 ("Request timed out.".toList)).1

/-- C2 counterexample: the claim quantifies over every input text containing
a substring matching `time=<number>` and asserts the latency extractor
yields that number.  The text `time=1.2.3` contains the substring
`time=1.2`, a genuine match of `time=([0-9.]+)` whose number converts (to
1.2), yet the extractor yields no number at all: the greedy capture at that
position is `1.2.3` and `float` raises, so the universally quantified claim
fails at this concrete input. -/
theorem claim_C2_counterexample :
    hasSub ("time=1.2".toList) ("time=1.2.3".toList) = true
    ∧ matchTimeAt ("time=1.2".toList) = some ("1.2".toList)
    ∧ (pyFloatQ ("1.2".toList)).isSome = true
    ∧ get_ping_latency ("time=1.2.3".toList) = Except.error () :=
  ⟨rfl, rfl, rfl, rfl⟩

/-- C2 (amended): for every probe output whose leftmost `time=([0-9.]+)`
capture converts, the latency extractor yields exactly that number, and it
yields absent on any output with no `time=` substring; for every link-query
output on which the link extractor returns cleanly, each of its three
fields is determined by its own pattern's search alone — rx bitrate and
tx bitrate each the conversion of their own capture, signal strength the
integer of its own capture — so each field is absent independently when its
pattern fails.  The claim's concrete scenarios hold as instances: a ping
line containing `time=23.4 ms` yields 23.4, and link output containing
`rx bitrate: 866.7 MBit/s` and `signal: -54 dBm` but no tx-bitrate pattern
yields rx bitrate 866.7, signal -54, tx bitrate absent. -/
theorem claim_C2 :
    (∀ out cap : List Char, ∀ v : ℚ,
      searchG matchTimeAt out = some cap → pyFloatQ cap = some v →
      get_ping_latency out = Except.ok (some v))
    ∧ (∀ out : List Char, hasSub timeLit out = false →
      get_ping_latency out = Except.ok none)
    ∧ (∀ out : List Char, ∀ rx tx : Option ℚ, ∀ sg : Option ℤ,
      get_link_info out = Except.ok (rx, tx, sg) →
      floatConv (searchG matchRxAt out) = Except.ok rx
      ∧ floatConv (searchG matchTxAt out) = Except.ok tx
      ∧ sg = (searchG matchSignalAt out).map strIntVal)
    ∧ get_ping_latency
        ("64 bytes from 8.8.8.8: icmp_seq=1 ttl=117 time=23.4 ms".toList)
        = Except.ok (some (117 / 5 : ℚ))
    ∧ get_link_info ("signal: -54 dBm\nrx bitrate: 866.7 MBit/s".toList)
        = Except.ok (some (8667 / 10 : ℚ), none, some (-54 : ℤ)) := by
  refine ⟨?_, ?_, ?_, ?_, ?_⟩
  · intro out cap v hs hv
    unfold get_ping_latency
    rw [hs, floatConv_some_of hv]
  · intro out h
    unfold get_ping_latency
    rw [searchG_eq_none (fun s cap hs => matchTimeAt_startsWith hs) h]
    rfl
  · intro out rx tx sg h
    unfold get_link_info at h
    obtain ⟨rxv, hrx, h⟩ := except_bind_ok_inv h
    obtain ⟨txv, htx, h⟩ := except_bind_ok_inv h
    have h' : Except.ok (rxv, txv, (searchG matchSignalAt out).map strIntVal)
        = Except.ok (rx, tx, sg) := h
    injection h' with h''
    have h1 : rxv = rx := congrArg Prod.fst h''
    have h2 : txv = tx := congrArg (fun x => x.2.1) h''
    have h3 : (searchG matchSignalAt out).map strIntVal = sg :=
      congrArg (fun x => x.2.2) h''
    refine ⟨?_, ?_, h3.symm⟩
    · rw [← h1]
      exact hrx
    · rw [← h2]
      exact htx
  · have hs : searchG matchTimeAt
        ("64 bytes from 8.8.8.8: icmp_seq=1 ttl=117 time=23.4 ms".toList)
        = some ("23.4".toList) := rfl
    have hv : pyFloatQ ("23.4".toList)
        = some (((23 : ℕ) : ℚ) + ((4 : ℕ) : ℚ) / 10 ^ 1) := rfl
    have hval : (((23 : ℕ) : ℚ) + ((4 : ℕ) : ℚ) / 10 ^ 1) = (117 / 5 : ℚ) := by
      push_cast
      norm_num
    unfold get_ping_latency
    rw [hs, floatConv_some_of (hv.trans (by rw [hval]))]
  · have hrx : searchG matchRxAt ("signal: -54 dBm\nrx bitrate: 866.7 MBit/s".toList)
        = some ("866.7".toList) := rfl
    have htx : searchG matchTxAt ("signal: -54 dBm\nrx bitrate: 866.7 MBit/s".toList)
        = none := rfl
    have hsg : searchG matchSignalAt ("signal: -54 dBm\nrx bitrate: 866.7 MBit/s".toList)
        = some ("-54".toList) := rfl
    have hv : pyFloatQ ("866.7".toList)
        = some (((866 : ℕ) : ℚ) + ((7 : ℕ) : ℚ) / 10 ^ 1) := rfl
    have hval : (((866 : ℕ) : ℚ) + ((7 : ℕ) : ℚ) / 10 ^ 1) = (8667 / 10 : ℚ) := by
      push_cast
      norm_num
    unfold get_link_info
    simp only [hrx, htx, hsg, floatConv_some_of (hv.trans (by rw [hval])),
      floatConv_none]
    rfl

/-- C2 witness: the universal part instantiated at a probe output with no
`time=` substring. -/
theorem claim_C2_witness :
    get_ping_latency ("Request timeout for icmp_seq 1".toList) = Except.ok none :=
  claim_C2.2.1 ("Request timeout for icmp_seq 1".toList) (by rfl)

/-- C3: whenever `get_interface_info` returns cleanly, frequency and width
are the independent values of their own patterns, the centre frequency is
the value of the `center1` pattern when that pattern matches and otherwise
falls back to the operating frequency, so it is absent exactly when both the
centre pattern and the frequency pattern fail; the txpower field is the
independent conversion of its own pattern. -/
theorem claim_C3 {out : List Char} {f w c : Option ℤ} {p : Option ℚ}
    (h : get_interface_info out = Except.ok (f, w, c, p)) :
    f = (searchG matchChannelAt out).map strIntVal
    ∧ w = (searchG matchWidthAt out).map strIntVal
    ∧ (∀ cap, searchG matchCenterAt out = some cap → c = some (strIntVal cap))
    ∧ (searchG matchCenterAt out = none → c = f)
    ∧ (c = none ↔ searchG matchCenterAt out = none
        ∧ searchG matchChannelAt out = none)
    ∧ floatConv (searchG matchPowerAt out) = Except.ok p := by
  unfold get_interface_info at h
  obtain ⟨pv, hpv, h⟩ := except_bind_ok_inv h
  have h' : Except.ok ((searchG matchChannelAt out).map strIntVal,
      (searchG matchWidthAt out).map strIntVal,
      (match searchG matchCenterAt out with
        | some cap => some (strIntVal cap)
        | none => (searchG matchChannelAt out).map strIntVal), pv)
      = Except.ok (f, w, c, p) := h
  injection h' with h''
  obtain ⟨hf, hw, hc, hp⟩ : f = (searchG matchChannelAt out).map strIntVal
      ∧ w = (searchG matchWidthAt out).map strIntVal
      ∧ c = (match searchG matchCenterAt out with
          | some cap => some (strIntVal cap)
          | none => (searchG matchChannelAt out).map strIntVal)
      ∧ p = pv := by
    have h1 := congrArg Prod.fst h''
    have h2 := congrArg (fun x => x.2.1) h''
    have h3 := congrArg (fun x => x.2.2.1) h''
    have h4 := congrArg (fun x => x.2.2.2) h''
    exact ⟨h1.symm, h2.symm, h3.symm, h4.symm⟩
  refine ⟨hf, hw, ?_, ?_, ?_, ?_⟩
  · intro cap hcap
    rw [hc, hcap]
  · intro hnone
    rw [hc, hnone, hf]
  · cases hcen : searchG matchCenterAt out with
    | some cap =>
      rw [hc, hcen]
      exact iff_of_false (by simp) (by simp)
    | none =>
      rw [hc, hcen, Option.map_eq_none']
      simp
  · rw [hp]
    exact hpv

/-- C3 witness: the characterisation instantiated on interface-info output
with frequency and width but no dedicated centre pattern, where the centre
frequency falls back to the operating frequency. -/
theorem claim_C3_witness :
    (some (5180 : ℤ) : Option ℤ) =
      (searchG matchChannelAt ("channel 36 (5180 MHz)\nwidth: 80 MHz".toList)).map
        strIntVal
    ∧ (searchG matchCenterAt ("channel 36 (5180 MHz)\nwidth: 80 MHz".toList) = none
        → (some (5180 : ℤ) : Option ℤ) = some 5180) :=
  have h : get_interface_info ("channel 36 (5180 MHz)\nwidth: 80 MHz".toList)
      = Except.ok (some 5180, some 80, some 5180, none) := rfl
  ⟨(claim_C3 h).1, (claim_C3 h).2.2.2.1⟩

/-- C4: for every Sample, the appended row holds, per column, the timestamp
and then each optional field's cell; an absent (`None`) field serializes to
the empty cell, a present field to the `str` rendering of its numeric value;
the empty cell is not the string `None`, not the string `null`, and not the
rendering of the number 0 (present values always render nonempty). -/
theorem claim_C4 (smp : Sample) :
    rowCells smp =
      [ smp.timestamp, cellOf (FVal.qv smp.latency_ms),
        cellOf (FVal.qv smp.rx_bitrate_mbps), cellOf (FVal.qv smp.tx_bitrate_mbps),
        cellOf (FVal.zv smp.signal_strength_dbm), cellOf (FVal.zv smp.frequency_mhz),
        cellOf (FVal.zv smp.width_mhz), cellOf (FVal.zv smp.centre_frequency_mhz),
        cellOf (FVal.qv smp.tx_power_dbm) ]
    ∧ cellOf (FVal.qv none) = []
    ∧ cellOf (FVal.zv none) = []
    ∧ (∀ q : ℚ, cellOf (FVal.qv (some q)) = renderFloat q ∧ renderFloat q ≠ [])
    ∧ (∀ z : ℤ, cellOf (FVal.zv (some z)) = renderInt z ∧ renderInt z ≠ [])
    ∧ ([] : List Char) ≠ "None".toList
    ∧ ([] : List Char) ≠ "null".toList
    ∧ ([] : List Char) ≠ renderFloat 0
    ∧ ([] : List Char) ≠ renderInt 0 :=
  ⟨rowCells_eq smp, rfl, rfl,
    fun q => ⟨rfl, renderFloat_ne_nil q⟩,
    fun z => ⟨rfl, renderInt_ne_nil z⟩,
    by decide, by decide,
    fun h => renderFloat_ne_nil 0 h.symm,
    fun h => renderInt_ne_nil 0 h.symm⟩

/-- C4 witness: the row of a concrete all-absent Sample, every optional
column an empty cell. -/
theorem claim_C4_witness :
    rowCells sampleB =
      [ sampleB.timestamp, cellOf (FVal.qv sampleB.latency_ms),
        cellOf (FVal.qv sampleB.rx_bitrate_mbps),
        cellOf (FVal.qv sampleB.tx_bitrate_mbps),
        cellOf (FVal.zv sampleB.signal_strength_dbm),
        cellOf (FVal.zv sampleB.frequency_mhz),
        cellOf (FVal.zv sampleB.width_mhz),
        cellOf (FVal.zv sampleB.centre_frequency_mhz),
        cellOf (FVal.qv sampleB.tx_power_dbm) ] :=
  (claim_C4 sampleB).1

/-- C5: writing the header once and then appending N well-formed samples
yields one header row (the field names in their fixed order) followed by
exactly N data rows, and re-reading the data rows recovers the N samples. -/
theorem claim_C5 (samples : List Sample) (h : ∀ smp ∈ samples, wfS smp = true) :
    (writeFile samples).length = samples.length + 1
    ∧ (writeFile samples).head? = some write_csv_header
    ∧ write_csv_header = fieldnames
    ∧ ((writeFile samples).drop 1).map parseRow = samples.map some := by
  refine ⟨?_, rfl, rfl, ?_⟩
  · unfold writeFile
    simp
  · have hdrop : (writeFile samples).drop 1 = samples.map rowCells := rfl
    rw [hdrop, List.map_map]
    exact List.map_congr_left (fun smp hs => parseRow_rowCells (h smp hs))

/-- C5 witness: the round trip instantiated on two concrete samples, one
with every field present and one with every optional field absent. -/
theorem claim_C5_witness :
    (writeFile [sampleA, sampleB]).length = [sampleA, sampleB].length + 1
    ∧ (writeFile [sampleA, sampleB]).head? = some write_csv_header
    ∧ write_csv_header = fieldnames
    ∧ ((writeFile [sampleA, sampleB]).drop 1).map parseRow
        = [sampleA, sampleB].map some :=
  claim_C5 [sampleA, sampleB] (by decide)

/-- C6: if the loop reaches tick `k` (no earlier cancellation, time still
within the duration, all earlier appends succeeded) and appending tick `k`'s
row fails, the raised error propagates out of the whole run: the loop
terminates with that error, it is not caught, not converted into an absent
field, and not dropped. -/
theorem claim_C6 (D I : ℕ) (cost : ℕ → ℕ) (cancel wOk : ℕ → Bool) (k : ℕ)
    (hI : 0 < I)
    (hT : ∀ m, m ≤ k → tickStart I cost m < D)
    (hcan : ∀ m, m ≤ k → cancel m = false)
    (hw : ∀ m, m < k → wOk m = true) (hwk : wOk k = false) :
    monitorRun D I cost cancel wOk = Except.error k
    ∧ runOk (monitorRun D I cost cancel wOk) = false := by
  have herr : monitorRun D I cost cancel wOk = Except.error k := by
    unfold monitorRun monitorFuel
    have hkD : k * I < D := lt_of_le_of_lt (tickStart_ge I cost k) (hT k (le_refl k))
    have hk : k < ceilDiv D I := lt_ceilDiv_of_mul_lt hI hkD
    have h0 : tickStart I cost 0 = 0 := rfl
    have hmain := loopAux_errAt k hT hcan hw hwk (ceilDiv D I + 1) 0 0
      (Nat.zero_le k) (by omega)
    rw [h0] at hmain
    exact hmain
  exact ⟨herr, by rw [herr]; rfl⟩

/-- C6 witness: a run whose very first append fails terminates immediately
with the raised error. -/
theorem claim_C6_witness :
    monitorRun 10 5 (fun _ => 0) (fun _ => false) (fun _ => false)
      = Except.error 0
    ∧ runOk (monitorRun 10 5 (fun _ => 0) (fun _ => false) (fun _ => false))
      = false :=
  claim_C6 10 5 (fun _ => 0) (fun _ => false) (fun _ => false) 0 (by decide)
    (fun m hm => by rw [Nat.le_zero.mp hm]; decide)
    (fun m _ => rfl)
    (fun m hm => absurd hm (Nat.not_lt_zero m))
    rfl

/-- C7: with duration `0 < D`, interval `0 < I ≤ D`, no cancellation and
every append succeeding, the loop terminates cleanly having appended at
least 1 and at most `ceilDiv D I` samples, and `ceilDiv D I` is exactly the
ceiling of `D / I`. -/
theorem claim_C7 (D I : ℕ) (cost : ℕ → ℕ) (hD : 0 < D) (hI : 0 < I)
    (_hID : I ≤ D) :
    runOk (monitorRun D I cost (fun _ => false) (fun _ => true)) = true
    ∧ 1 ≤ runCount (monitorRun D I cost (fun _ => false) (fun _ => true))
    ∧ runCount (monitorRun D I cost (fun _ => false) (fun _ => true)) ≤ ceilDiv D I
    ∧ ceilDiv D I = Nat.ceil ((D : ℚ) / (I : ℚ)) := by
  refine ⟨?_, ?_, ?_, ceilDiv_eq_ceil hI⟩
  · exact (loopAux_ok_ge (monitorFuel D I) 0 0 0).1
  · show 1 ≤ runCount (loopAux D I cost (fun _ => false) (fun _ => true)
      (ceilDiv D I + 1) 0 0 0)
    unfold loopAux
    rw [if_neg (by simp), if_pos hD, if_pos rfl]
    exact (loopAux_ok_ge _ _ _ _).2
  · exact loopAux_count_le hI (monitorFuel D I) 0 0 0 (by simp) (Nat.zero_le _)

/-- C7 witness: the tick bounds instantiated at the default configuration,
duration 3600 and interval 5. -/
theorem claim_C7_witness :
    runOk (monitorRun 3600 5 (fun _ => 0) (fun _ => false) (fun _ => true)) = true
    ∧ 1 ≤ runCount (monitorRun 3600 5 (fun _ => 0) (fun _ => false) (fun _ => true))
    ∧ runCount (monitorRun 3600 5 (fun _ => 0) (fun _ => false) (fun _ => true))
        ≤ ceilDiv 3600 5
    ∧ ceilDiv 3600 5 = Nat.ceil ((3600 : ℚ) / (5 : ℚ)) :=
  claim_C7 3600 5 (fun _ => 0) (by decide) (by decide) (by decide)

/-- C8: if the cancellation flag flips while tick `k` is in flight (the flag
reads false at the top of every iteration up to `k` and true afterwards),
tick `k`'s sample is still collected and appended before the loop exits, no
later tick begins, and the run terminates cleanly with exactly `k + 1`
samples, proceeding to end-of-run reporting. -/
theorem claim_C8 (D I : ℕ) (cost : ℕ → ℕ) (k : ℕ) (hI : 0 < I)
    (hT : ∀ m, m ≤ k → tickStart I cost m < D) :
    monitorRun D I cost (fun n => decide (k < n)) (fun _ => true)
      = Except.ok (k + 1)
    ∧ runOk (monitorRun D I cost (fun n => decide (k < n)) (fun _ => true))
      = true := by
  have h := monitorRun_cancelAt hI hT
  exact ⟨h, by rw [h]; rfl⟩

/-- C8 witness: the scenario of the claim — duration 3600, cancellation
arriving during the first tick — records exactly one sample and terminates
cleanly. -/
theorem claim_C8_witness :
    monitorRun 3600 5 (fun _ => 0) (fun n => decide (0 < n)) (fun _ => true)
      = Except.ok 1
    ∧ runOk (monitorRun 3600 5 (fun _ => 0) (fun n => decide (0 < n))
        (fun _ => true)) = true :=
  claim_C8 3600 5 (fun _ => 0) 0 (by decide)
    (fun m hm => by rw [Nat.le_zero.mp hm]; decide)

/-- C9 counterexample: the claim says the placeholder is displayed exactly
when the latency field is absent, but the progress line computes
`data['latency_ms'] or 'N/A'`, and the present value `0.0` is falsy in
Python, so a recorded latency of 0 also displays the placeholder. -/
theorem claim_C9_counterexample :
    progressLatency (some (0 : ℚ)) = "N/A".toList
    ∧ (some (0 : ℚ) : Option ℚ) ≠ none := by
  constructor
  · show (if (0 : ℚ) = 0 then "N/A".toList else renderFloat 0) = "N/A".toList
    rw [if_pos rfl]
  · simp

/-- C9 (amended): the per-tick progress line displays the placeholder
exactly when the just-recorded latency is absent or equal to 0 (both falsy
under Python `or`), and displays the rendered latency value whenever it is
present and nonzero. -/
theorem claim_C9 (lat : Option ℚ) :
    (progressLatency lat = "N/A".toList ↔ (lat = none ∨ lat = some 0))
    ∧ (∀ q : ℚ, lat = some q → q ≠ 0 → progressLatency lat = renderFloat q) := by
  cases lat with
  | none =>
    constructor
    · exact iff_of_true rfl (Or.inl rfl)
    · intro q hq
      exact absurd hq (by simp)
  | some q =>
    by_cases hq : q = 0
    · subst hq
      constructor
      · refine iff_of_true ?_ (Or.inr rfl)
        show (if (0 : ℚ) = 0 then "N/A".toList else renderFloat 0) = "N/A".toList
        rw [if_pos rfl]
      · intro q' hq' hne
        injection hq' with hh
        exact absurd hh.symm hne
    · constructor
      · show (if q = 0 then "N/A".toList else renderFloat q) = "N/A".toList ↔ _
        rw [if_neg hq]
        refine iff_of_false (renderFloat_ne_na q) ?_
        simp [hq]
      · intro q' hq' hne
        injection hq' with hh
        subst hh
        show (if q = 0 then "N/A".toList else renderFloat q) = renderFloat q
        rw [if_neg hq]

/-- C9 witness: a present nonzero latency is displayed as its rendered
value. -/
theorem claim_C9_witness :
    progressLatency (some (5 : ℚ)) = renderFloat 5 :=
  (claim_C9 (some 5)).2 5 rfl (by norm_num)

/-- C10: every record the collector builds carries exactly the nine keys of
the Recorder's `fieldnames`, in order, with the timestamp always the
formatted wall-clock string; consequently `write_data_row` never raises for
a collected record — it succeeds on every Sample's record. -/
theorem claim_C10 :
    (∀ smp : Sample, (recordOf smp).map Prod.fst = fieldnames
      ∧ write_data_row (recordOf smp) = Except.ok (rowCells smp))
    ∧ (∀ (now : ℕ × ℕ × ℕ × ℕ × ℕ × ℕ) (pingOut linkOut infoOut : List Char)
        (smp : Sample),
        collect_data_sample now pingOut linkOut infoOut = Except.ok smp →
        smp.timestamp
          = fmtTs now.1 now.2.1 now.2.2.1 now.2.2.2.1 now.2.2.2.2.1
              now.2.2.2.2.2) := by
  constructor
  · intro smp
    refine ⟨rfl, ?_⟩
    rw [write_data_row_recordOf, rowCells_eq]
  · intro now p l i smp h
    unfold collect_data_sample at h
    obtain ⟨lat, _, h⟩ := except_bind_ok_inv h
    obtain ⟨li, _, h⟩ := except_bind_ok_inv h
    obtain ⟨ii, _, h⟩ := except_bind_ok_inv h
    have h' : Except.ok (⟨fmtTs now.1 now.2.1 now.2.2.1 now.2.2.2.1
        now.2.2.2.2.1 now.2.2.2.2.2,
        lat, li.1, li.2.1, li.2.2, ii.1, ii.2.1, ii.2.2.1, ii.2.2.2⟩ : Sample)
        = Except.ok smp := h
    injection h' with h''
    rw [← h'']

/-- C10 witness: a concretely collected sample carries the formatted
timestamp of its collection instant. -/
theorem claim_C10_witness :
    (Sample.mk (fmtTs 2025 6 1 12 0 0) none none none (some (-54)) (some 5180)
        none (some 5180) none).timestamp = fmtTs 2025 6 1 12 0 0 :=
  claim_C10.2 (2025, 6, 1, 12, 0, 0) ("no match".toList)
    ("signal: -54 dBm".toList) ("channel 36 (5180 MHz)".toList)
    (Sample.mk (fmtTs 2025 6 1 12 0 0) none none none (some (-54)) (some 5180)
      none (some 5180) none) (by rfl)

end ConnLog
